import Mathlib

/-!
Verification development for the `tune` repository (microtonal synthesizer).

The development shallowly embeds, in Lean, the parts of the source that the
claims are about:

* `src/microwave/src/synth.rs` — the polyphony manager (`SynthState`, its
  message processing, and the realtime `write` path of `WaveformSynth`), and
  the `WaveformBackend`/`MidiOutBackend` program-change and pitch-bend logic.
* `src/microwave/src/magnetron/oscillator.rs` — the three oscillator stage
  algorithms (no modulation, by-phase, by-frequency).
* `src/src/pitch.rs` — the `Ratio` conversions and
  `NearestFraction::for_ratio`.

Modelling conventions: `f64` values that only flow through the code are
modelled as real numbers (`ℝ`); sample values whose NaN behaviour matters are
modelled by `FSample` (a rational payload — every finite `f64` is rational —
or NaN, with IEEE propagation); machine integers are `ℕ` with explicit bounds
(`% 2^64` for the wrapping `u64` counter, `≤ 65535` for `u16::checked_add`).
`HashMap` state is modelled as an association list whose key list is `Nodup`.
Code of the repository that is not under `src/` (the magnetron buffer pool,
`Waveform`/envelope internals, `math::odd_factors_u16`) is modelled from the
spec where a claim needs it; each such definition says so in its doc comment.
-/

namespace Tune

/-- Model of an `f64` sample: NaN, or a finite value. Finite `f64` values are
dyadic rationals, so the payload is `ℚ`; rounding is not modelled. -/
inductive FSample where
  | nan : FSample
  | val (x : ℚ) : FSample
deriving DecidableEq

namespace FSample

/-- IEEE `f64` addition restricted to the NaN/finite distinction:
NaN propagates, finite values add. -/
def add : FSample → FSample → FSample
  | nan, _ => nan
  | val _, nan => nan
  | val x, val y => val (x + y)

/-- IEEE `f64` division by the constant `10.0` (from `out / 10.0` in
`WaveformSynth::write`): NaN propagates. -/
def div10 : FSample → FSample
  | nan => nan
  | val x => val (x / 10)

/-- The `f64` comparison `a < t` of `waveform.properties.curr_amplitude < 0.0001`:
`false` when `a` is NaN (IEEE comparisons with NaN are false). -/
def ltVal : FSample → ℚ → Bool
  | nan, _ => false
  | val x, t => decide (x < t)

end FSample

/-- The eight controller kinds of `SynthControl` in `synth.rs`. -/
inductive SynthControl where
  | modulation
  | breath
  | foot
  | expression
  | damper
  | sostenuto
  | softPedal
  | channelPressure
deriving DecidableEq

/-- `WaveformState<S>` from `synth.rs`: the key of the voice table.
`Stable(S)` while the source is held, `Fading(u64)` after release. -/
inductive WaveformState (S : Type) where
  | stable (id : S)
  | fading (n : ℕ)
deriving DecidableEq

/-- The per-voice data the polyphony manager touches. The fields mirror the
uses in `synth.rs` (`properties.pitch`, `properties.pressure`,
`properties.pitch_bend`, `properties.curr_amplitude`, `set_fade`).
`released` models the envelope release state set by `Waveform::set_fade`;
Modelled from the spec for the envelope part: `magnetron/waveform.rs` is not
under `src/`, and the spec says `set_fade` sets the envelope to released with
the current damper pressure. -/
structure Waveform where
  pitch : ℝ
  pressure : ℝ
  pitchBend : ℝ
  currAmplitude : FSample
  released : Option ℝ

/-- Modelled from the spec: `Waveform::set_fade(damper_pedal_pressure)`
(`magnetron/waveform.rs`, not under `src/`) sets the envelope to released,
recomputing the fade from the given damper pressure. -/
def Waveform.setFade (damper : ℝ) (w : Waveform) : Waveform :=
  { w with released := some damper }

/-- `Lifecycle` from `synth.rs`. -/
inductive Lifecycle where
  | start (waveform : Waveform)
  | updatePitch (pitch : ℝ)
  | updatePressure (pressure : ℝ)
  | stop

/-- `Message<S>` from `synth.rs`. -/
inductive Message (S : Type) where
  | lifecycle (id : S) (action : Lifecycle)
  | damperPedal (pressure : ℝ)
  | pitchBend (bendLevel : ℝ)
  | control (control : SynthControl) (value : ℝ)

section AList

variable {K : Type} {V : Type} [DecidableEq K]

/-- Key list of an association list. -/
def alKeys (l : List (K × V)) : List K := l.map Prod.fst

/-- `HashMap::insert`: replace the value when the key is present, add the
entry otherwise. -/
def alInsert (k : K) (v : V) (l : List (K × V)) : List (K × V) :=
  if k ∈ alKeys l then l.map (fun e => if e.1 = k then (k, v) else e)
  else (k, v) :: l

/-- `HashMap::get_mut` followed by a mutation: update the value at the key,
no-op when the key is absent (models `if let Some(w) = playing.get_mut(k)`). -/
def alUpdate (k : K) (f : V → V) (l : List (K × V)) : List (K × V) :=
  l.map (fun e => if e.1 = k then (e.1, f e.2) else e)

/-- Lookup part of `HashMap::remove`. -/
def alLookup (k : K) (l : List (K × V)) : Option V :=
  (l.find? (fun e => decide (e.1 = k))).map Prod.snd

/-- Removal part of `HashMap::remove`. -/
def alErase (k : K) (l : List (K × V)) : List (K × V) :=
  l.filter (fun e => decide (¬e.1 = k))

end AList

/-- `SynthState<S>` from `synth.rs`. The `magnetron: Magnetron` field (pure
render-time DSP state, never touched by `process_message`, defined outside
`src/`) is not modelled. -/
structure SynthState (S : Type) where
  playing : List (WaveformState S × Waveform)
  storage : List (SynthControl × ℝ)
  damperPedalPressure : ℝ
  pitchWheelSensivity : ℝ
  pitchBend : ℝ
  lastId : ℕ

/-- `pressure.max(0.0).min(1.0)` from the damper-pedal branch. -/
noncomputable def clampPressure (x : ℝ) : ℝ := min (max x 0) 1

/-- `f64::cbrt` as used in the damper-pedal branch. It is only ever applied
to the clamped (nonnegative) pedal pressure, where the real cube root agrees
with `x ^ (1/3)`. -/
noncomputable def cbrt (x : ℝ) : ℝ := x ^ ((1 : ℝ) / 3)

namespace Ratio

/-- `Ratio::from_float`: the model of a `Ratio` is its `float_value`. -/
def fromFloat (x : ℝ) : ℝ := x

/-- `Ratio::as_float`. -/
def asFloat (r : ℝ) : ℝ := r

/-- `Ratio::from_octaves`: `octaves.exp2()`. -/
noncomputable def fromOctaves (o : ℝ) : ℝ := (2 : ℝ) ^ o

/-- `Ratio::from_cents`: `from_octaves(cents_value / 1200.0)`. -/
noncomputable def fromCents (c : ℝ) : ℝ := fromOctaves (c / 1200)

/-- `Ratio::as_octaves`: `float_value.log2()`. -/
noncomputable def asOctaves (r : ℝ) : ℝ := Real.logb 2 r

/-- `Ratio::as_semitones`: `as_octaves() * 12.0`. -/
noncomputable def asSemitones (r : ℝ) : ℝ := asOctaves r * 12

/-- `Ratio::as_cents`: `as_semitones() * 100.0`. -/
noncomputable def asCents (r : ℝ) : ℝ := asSemitones r * 100

/-- `Ratio::repeated`: `from_octaves(as_octaves * num_repetitions)`. -/
noncomputable def repeated (r n : ℝ) : ℝ := fromOctaves (asOctaves r * n)

/-- `Ratio::deviation_from`: `from_float(as_float / reference.as_float)`. -/
noncomputable def deviationFrom (r reference : ℝ) : ℝ := r / reference

end Ratio

namespace SynthState

variable {S : Type} [DecidableEq S]

/-- `SynthState::process_message` from `synth.rs`, branch for branch. -/
noncomputable def processMessage (s : SynthState S) : Message S → SynthState S
  | .lifecycle id action =>
    match action with
    | .start waveform =>
      { s with playing := alInsert (.stable id) waveform s.playing }
    | .updatePitch pitch =>
      { s with playing :=
          alUpdate (.stable id) (fun w => { w with pitch := pitch }) s.playing }
    | .updatePressure pressure =>
      { s with playing :=
          alUpdate (.stable id) (fun w => { w with pressure := pressure }) s.playing }
    | .stop =>
      match alLookup (.stable id) s.playing with
      | some w =>
        { s with
          playing := alInsert (.fading s.lastId) (w.setFade s.damperPedalPressure)
            (alErase (.stable id) s.playing),
          lastId := (s.lastId + 1) % 2 ^ 64 }
      | none => s
  | .damperPedal pressure =>
    let curve := cbrt (clampPressure pressure)
    { s with
      damperPedalPressure := curve,
      playing := s.playing.map (fun e =>
        match e.1 with
        | .fading _ => (e.1, e.2.setFade curve)
        | .stable _ => e) }
  | .pitchBend bendLevel =>
    { s with pitchBend := Ratio.repeated s.pitchWheelSensivity bendLevel }
  | .control control value =>
    { s with storage := alInsert control value s.storage }

/-- Draining the message queue: `for message in self.messages.try_iter()`. -/
noncomputable def processMessages (s : SynthState S) (msgs : List (Message S)) :
    SynthState S :=
  msgs.foldl processMessage s

end SynthState

/-- The pitch-bend refresh inside `playing.retain`: only `Stable` voices get
the manager's current pitch bend. -/
def applyBend {S : Type} (pb : ℝ) (k : WaveformState S) (w : Waveform) : Waveform :=
  match k with
  | .stable _ => { w with pitchBend := pb }
  | .fading _ => w

/-- The `playing.retain(...)` body of `WaveformSynth::write`: a voice with
`curr_amplitude < 0.0001` is dropped without being rendered; any other voice
has its pitch bend refreshed when `Stable`, is rendered (`buffers.write`,
whose magnetron code is not under `src/`, is the `render` parameter), and is
kept. -/
def retainRender {S : Type} (render : Waveform → Waveform) (pb : ℝ)
    (l : List (WaveformState S × Waveform)) : List (WaveformState S × Waveform) :=
  l.filterMap (fun e =>
    if FSample.ltVal e.2.currAmplitude (1 / 10000) then none
    else some (e.1, render (applyBend pb e.1 e.2)))

/-- The host-output accumulation loop of `WaveformSynth::write`:
`*left += out / 10.0; *right += out / 10.0` over `buffers.total()` zipped with
the interleaved stereo buffer (modelled as a list of left/right pairs; `zip`
truncates exactly as the Rust iterator `zip` does). No NaN check is performed. -/
def accumulate (total : List FSample) (buffer : List (FSample × FSample)) :
    List (FSample × FSample) :=
  List.zipWith (fun out lr => (lr.1.add out.div10, lr.2.add out.div10)) total buffer

/-- `WaveformSynth::write`: drain pending messages, retain/render voices,
accumulate the mixdown into the host buffer. The mixdown `total` is produced
by the magnetron (code not under `src/`) and is a parameter. -/
noncomputable def synthWrite {S : Type} [DecidableEq S] (render : Waveform → Waveform)
    (total : List FSample) (msgs : List (Message S))
    (buffer : List (FSample × FSample)) (s : SynthState S) :
    SynthState S × List (FSample × FSample) :=
  let s1 := s.processMessages msgs
  ({ s1 with playing := retainRender render s1.pitchBend s1.playing },
   accumulate total buffer)

/-- `WaveformBackend::pitch_bend`: the message sent for a raw pitch-wheel
value, `bend_level = f64::from(value) / 8192.0`. -/
noncomputable def backendPitchBendMessage (S : Type) (value : ℤ) : Message S :=
  .pitchBend ((value : ℝ) / 8192)

/-- `WaveformBackend::program_change`:
`curr_waveform = update_fn(curr_waveform + waveforms.len()) % waveforms.len()`. -/
def backendProgramChange (updateFn : ℕ → ℕ) (currWaveform numWaveforms : ℕ) : ℕ :=
  updateFn (currWaveform + numWaveforms) % numWaveforms

/-- `MidiOutBackend::program_change`:
`curr_program = update_fn(curr_program).min(127)`. -/
def midiProgramChange (updateFn : ℕ → ℕ) (currProgram : ℕ) : ℕ :=
  min (updateFn currProgram) 127

/-! ## Oscillator stages (`magnetron/oscillator.rs`)

The per-sample closures of `apply_no_modulation`, `apply_variable_phase` and
`apply_variable_frequency`, run over one block. The oscillator shape
`oscillator_fn` is a parameter (as in the source); the `LfSource` frequency is
sampled once per block (`frequency.next(control)` before the sample loop) and
is therefore a per-block parameter. `f64::rem_euclid(1.0)` is `Int.fract`. -/

/-- `x.rem_euclid(1.0)`. -/
def fract1 (x : ℚ) : ℚ := Int.fract x

/-- One block of `apply_no_modulation`: `n` samples, returning the generated
signals and the final phase. Per sample: emit `shape(phase)`, then
`phase = (phase + sample_secs * frequency).rem_euclid(1.0)`. -/
def oscNoModRun (oscFn : ℚ → ℚ) (sampleSecs frequency : ℚ) :
    ℚ → ℕ → List ℚ × ℚ
  | phase, 0 => ([], phase)
  | phase, n + 1 =>
    let signal := oscFn phase
    let rest := oscNoModRun oscFn sampleSecs frequency
      (fract1 (phase + sampleSecs * frequency)) n
    (signal :: rest.1, rest.2)

/-- One block of `apply_variable_phase` over the input samples. Per sample:
emit `shape((phase + s).rem_euclid(1.0))`, then advance the phase by
`sample_secs * frequency` as in the unmodulated case. -/
def oscByPhaseRun (oscFn : ℚ → ℚ) (sampleSecs frequency : ℚ) :
    ℚ → List ℚ → List ℚ × ℚ
  | phase, [] => ([], phase)
  | phase, s :: ss =>
    let signal := oscFn (fract1 (phase + s))
    let rest := oscByPhaseRun oscFn sampleSecs frequency
      (fract1 (phase + sampleSecs * frequency)) ss
    (signal :: rest.1, rest.2)

/-- One block of `apply_variable_frequency` over the input samples. Per
sample: emit `shape(phase)`, then
`phase = (phase + sample_secs * (frequency + s)).rem_euclid(1.0)`. -/
def oscByFreqRun (oscFn : ℚ → ℚ) (sampleSecs frequency : ℚ) :
    ℚ → List ℚ → List ℚ × ℚ
  | phase, [] => ([], phase)
  | phase, s :: ss =>
    let signal := oscFn phase
    let rest := oscByFreqRun oscFn sampleSecs frequency
      (fract1 (phase + sampleSecs * (frequency + s))) ss
    (signal :: rest.1, rest.2)

/-- The phase trajectory shared by the unmodulated and by-phase oscillator
stages: start at `phase`, advance by `sample_secs * frequency` modulo 1 after
each sample. -/
def oscPhase (sampleSecs frequency phase : ℚ) : ℕ → ℚ
  | 0 => phase
  | i + 1 => fract1 (oscPhase sampleSecs frequency phase i + sampleSecs * frequency)

/-- The phase trajectory of the by-frequency oscillator stage after consuming
the given input samples: each input `s` advances the phase by
`sample_secs * (frequency + s)` modulo 1. -/
def oscPhaseFM (sampleSecs frequency : ℚ) : ℚ → List ℚ → ℚ
  | phase, [] => phase
  | phase, s :: ss =>
    oscPhaseFM sampleSecs frequency (fract1 (phase + sampleSecs * (frequency + s))) ss

/-! ## `NearestFraction::for_ratio` (`src/src/pitch.rs`) -/

/-- Modelled from the spec: `math::odd_factors_u16` (`math.rs` is not under
`src/`). Per its documentation quoted in `pitch.rs`, only odd factors count:
"12 is 3, effectively, while 11 stays 11" — the odd part of `n`. Structural
recursion on a halving counter (`n` halvings always suffice). -/
def oddFactorsAux : ℕ → ℕ → ℕ
  | 0, n => n
  | f + 1, n => if n % 2 = 0 ∧ n ≠ 0 then oddFactorsAux f (n / 2) else n

/-- The odd part of `n` (see `oddFactorsAux`). -/
def oddFactors (n : ℕ) : ℕ := oddFactorsAux n n

section SternBrocot

variable {K : Type} [LinearOrderedField K]

/-- `Ratio::abs`: reciprocal when the value lies strictly between `-1` and
`1`, identity otherwise. (Only ever applied to positive deviations here.) -/
def ratioAbs (x : K) : K := if -1 < x ∧ x < 1 then x⁻¹ else x

/-- `mid_deviation.abs() < best_deviation.abs()` where the initial best
deviation is `f64::INFINITY` (modelled by `none`): any finite deviation
improves on it. -/
def improves (d : K) : Option K → Bool
  | none => true
  | some b => decide (ratioAbs d < ratioAbs b)

/-- The candidate update of one loop iteration: when both odd factors of the
mediant are within the limit and its deviation improves on the best so far,
the mediant becomes the best. -/
def sbCandidate (target : K) (oddLimit : ℕ) (mid best : ℕ × ℕ)
    (bestDev : Option K) : (ℕ × ℕ) × Option K :=
  if oddFactors mid.1 ≤ oddLimit ∧ oddFactors mid.2 ≤ oddLimit then
    if improves (target / ((mid.1 : K) / (mid.2 : K))) bestDev then
      (mid, some (target / ((mid.1 : K) / (mid.2 : K))))
    else (best, bestDev)
  else (best, bestDev)

/-- The Stern-Brocot walk of `NearestFraction::for_ratio`, fuelled (the Rust
loop terminates because the mediant components strictly grow and
`u16::checked_add` fails above `65535`; the fuel passed by `nearestFraction`
exceeds every possible iteration count). State: bounds `left`, `right`, the
best eligible fraction so far and its raw deviation (`none` = infinity). -/
def sbLoop (target : K) (oddLimit : ℕ) :
    ℕ → ℕ × ℕ → ℕ × ℕ → ℕ × ℕ → Option K → (ℕ × ℕ) × Option K
  | 0, _, _, best, bestDev => (best, bestDev)
  | fuel + 1, left, right, best, bestDev =>
    if left.1 + right.1 ≤ 65535 ∧ left.2 + right.2 ≤ 65535 then
      if oddLimit < oddFactors (left.1 + right.1)
          ∧ oddLimit < oddFactors (left.2 + right.2) then
        (best, bestDev)
      else
        let next : (ℕ × ℕ) × Option K :=
          sbCandidate target oddLimit (left.1 + right.1, left.2 + right.2) best bestDev
        if target < ((left.1 + right.1 : ℕ) : K) / ((left.2 + right.2 : ℕ) : K) then
          sbLoop target oddLimit fuel left (left.1 + right.1, left.2 + right.2)
            next.1 next.2
        else if ((left.1 + right.1 : ℕ) : K) / ((left.2 + right.2 : ℕ) : K) < target then
          sbLoop target oddLimit fuel (left.1 + right.1, left.2 + right.2) right
            next.1 next.2
        else (next.1, next.2)
    else (best, bestDev)

end SternBrocot

/-- `NearestFraction` from `pitch.rs`. `deviation = none` models the initial
`f64::INFINITY` (only reachable when no mediant was eligible). -/
structure NearestFraction where
  numer : ℕ
  denom : ℕ
  deviation : Option ℝ
  numOctaves : ℤ

/-- `NearestFraction::for_ratio`:
`num_octaves = ratio.as_octaves().floor()`, the target is the octave-reduced
ratio `ratio.deviation_from(Ratio::from_octaves(num_octaves))`, and the
Stern-Brocot walk starts from `left = 0/1`, `right = 1/0` with no best yet. -/
noncomputable def nearestFraction (ratio : ℝ) (oddLimit : ℕ) : NearestFraction :=
  let numOctaves : ℤ := ⌊Ratio.asOctaves ratio⌋
  let targetRatio : ℝ :=
    Ratio.deviationFrom ratio (Ratio.fromOctaves (numOctaves : ℝ))
  let res := sbLoop targetRatio oddLimit 262144 (0, 1) (1, 0) (0, 0) none
  ⟨res.1.1, res.1.2, res.2, numOctaves⟩

/-! ## Theorems -/

/-- Claim C10: for every update function passed to `program_change`, the
waveform backend's new index is `update_fn(curr + len) % len`, hence strictly
below the number of loaded waveforms (when any are loaded); the count added
before the update function makes a decrement from index `0` wrap to the last
index; and the MIDI-out backend's program number is capped at `127`. -/
theorem c10_program_change_in_range (updateFn midiUpdateFn : ℕ → ℕ)
    (currWaveform numWaveforms currProgram : ℕ) (h : 0 < numWaveforms) :
    backendProgramChange updateFn currWaveform numWaveforms < numWaveforms
    ∧ backendProgramChange (fun x => x - 1) 0 numWaveforms = numWaveforms - 1
    ∧ midiProgramChange midiUpdateFn currProgram ≤ 127 := by
  refine ⟨Nat.mod_lt _ h, ?_, min_le_right _ _⟩
  unfold backendProgramChange
  have hlt : numWaveforms - 1 < numWaveforms := Nat.sub_lt h Nat.one_pos
  simp only [Nat.zero_add]
  exact Nat.mod_eq_of_lt hlt

/-- Witness for C10 at a concrete input. -/
theorem c10_witness :
    0 < 3 ∧ backendProgramChange (fun x => x + 1) 0 3 < 3 :=
  ⟨by decide, (c10_program_change_in_range (fun x => x + 1) id 0 3 0 (by decide)).1⟩

/-- Claim C9: the float and cents round trips of `Ratio`.
`from_float(r).as_float()` is `r` exactly (hence within `1e-12`), and
`from_cents(c).as_cents()` is `c` exactly (hence within `1e-9`), in the
real-number model of `f64`. -/
theorem c9_ratio_roundtrips (r : ℝ) (hr : 0 < r) :
    |Ratio.asFloat (Ratio.fromFloat r) - r| ≤ 1 / 10 ^ 12
    ∧ ∀ c : ℝ, |Ratio.asCents (Ratio.fromCents c) - c| ≤ 1 / 10 ^ 9 := by
  constructor
  · unfold Ratio.asFloat Ratio.fromFloat
    simp only [sub_self, abs_zero]
    norm_num
  · intro c
    have hlogb : Ratio.asCents (Ratio.fromCents c) = c := by
      unfold Ratio.asCents Ratio.asSemitones Ratio.asOctaves Ratio.fromCents
        Ratio.fromOctaves
      rw [Real.logb_rpow (by norm_num) (by norm_num)]
      ring
    rw [hlogb]
    simp only [sub_self, abs_zero]
    norm_num

/-- Witness for C9 at a concrete input. -/
theorem c9_witness :
    0 < (2 : ℝ)
    ∧ |Ratio.asCents (Ratio.fromCents 700) - 700| ≤ 1 / 10 ^ 9 :=
  ⟨by norm_num, (c9_ratio_roundtrips 2 (by norm_num)).2 700⟩

/-- Claim C5: the waveform backend turns a raw pitch-wheel value `v` into a
`PitchBend` message with `bend_level = v / 8192`, and processing
`PitchBend{bend_level}` sets the manager's pitch bend to
`pitch_wheel_sensivity.repeated(bend_level)`, which for a positive
sensitivity is the sensitivity raised to the power `bend_level`. -/
theorem c5_pitch_bend {S : Type} [DecidableEq S] (s : SynthState S) (value : ℤ)
    (bendLevel : ℝ) (hs : 0 < s.pitchWheelSensivity) :
    backendPitchBendMessage S value = Message.pitchBend ((value : ℝ) / 8192)
    ∧ (s.processMessage (.pitchBend bendLevel)).pitchBend
        = Ratio.repeated s.pitchWheelSensivity bendLevel
    ∧ (s.processMessage (.pitchBend bendLevel)).pitchBend
        = s.pitchWheelSensivity ^ bendLevel := by
  refine ⟨rfl, rfl, ?_⟩
  show Ratio.repeated s.pitchWheelSensivity bendLevel = _
  unfold Ratio.repeated Ratio.fromOctaves Ratio.asOctaves
  rw [Real.rpow_mul (by norm_num : (0:ℝ) ≤ 2),
    Real.rpow_logb (by norm_num) (by norm_num) hs]

/-- Witness for C5 at a concrete input. -/
theorem c5_witness :
    0 < ((⟨[], [], 0, 2, 1, 0⟩ : SynthState ℕ).pitchWheelSensivity)
    ∧ ((⟨[], [], 0, 2, 1, 0⟩ : SynthState ℕ).processMessage
        (.pitchBend 1)).pitchBend = (2 : ℝ) ^ (1 : ℝ) :=
  ⟨by norm_num, (c5_pitch_bend (⟨[], [], 0, 2, 1, 0⟩ : SynthState ℕ) 0 1
    (by norm_num)).2.2⟩

/-- Taking `rem_euclid 1.0` of an already reduced phase plus an increment is
the same as reducing the unreduced sum. -/
theorem fract1_fract1_add (a b : ℚ) : fract1 (fract1 a + b) = fract1 (a + b) := by
  unfold fract1
  have h : Int.fract a + b = a + b - (⌊a⌋ : ℚ) := by rw [Int.fract]; ring
  rw [h, Int.fract_sub_int]

theorem oscPhase_shift (secs fr p : ℚ) :
    ∀ i, oscPhase secs fr (fract1 (p + secs * fr)) i = oscPhase secs fr p (i + 1) := by
  intro i
  induction i with
  | zero => rfl
  | succ i ih => show fract1 _ = fract1 _; rw [ih]

theorem oscPhase_closed (secs fr p : ℚ) :
    ∀ i, 1 ≤ i → oscPhase secs fr p i = fract1 (p + i * (secs * fr)) := by
  intro i
  induction i with
  | zero => omega
  | succ i ih =>
    intro _
    rcases Nat.eq_zero_or_pos i with hi | hi
    · subst hi
      show fract1 (p + secs * fr) = _
      norm_num
    · show fract1 (oscPhase secs fr p i + secs * fr) = _
      rw [ih hi, fract1_fract1_add]
      congr 1
      push_cast
      ring

theorem oscNoModRun_get (f : ℚ → ℚ) (secs fr : ℚ) :
    ∀ (n i : ℕ) (p : ℚ), i < n →
      (oscNoModRun f secs fr p n).1.get? i = some (f (oscPhase secs fr p i)) := by
  intro n
  induction n with
  | zero => omega
  | succ n ih =>
    intro i p hi
    match i with
    | 0 => rfl
    | i + 1 =>
      show (oscNoModRun f secs fr (fract1 (p + secs * fr)) n).1.get? i = _
      rw [ih i _ (by omega), oscPhase_shift]

theorem oscNoModRun_final (f : ℚ → ℚ) (secs fr : ℚ) :
    ∀ (n : ℕ) (p : ℚ), (oscNoModRun f secs fr p n).2 = oscPhase secs fr p n := by
  intro n
  induction n with
  | zero => intro p; rfl
  | succ n ih =>
    intro p
    show (oscNoModRun f secs fr (fract1 (p + secs * fr)) n).2 = _
    rw [ih, oscPhase_shift]

theorem oscByPhaseRun_get (f : ℚ → ℚ) (secs fr : ℚ) :
    ∀ (ss : List ℚ) (i : ℕ) (p : ℚ) (hi : i < ss.length),
      (oscByPhaseRun f secs fr p ss).1.get? i
        = some (f (fract1 (oscPhase secs fr p i + ss.get ⟨i, hi⟩))) := by
  intro ss
  induction ss with
  | nil => intro i p hi; simp at hi
  | cons s ss ih =>
    intro i p hi
    match i with
    | 0 => rfl
    | i + 1 =>
      show (oscByPhaseRun f secs fr (fract1 (p + secs * fr)) ss).1.get? i = _
      rw [ih i _ (by simpa using hi), oscPhase_shift]
      rfl

theorem oscByPhaseRun_final (f : ℚ → ℚ) (secs fr : ℚ) :
    ∀ (ss : List ℚ) (p : ℚ),
      (oscByPhaseRun f secs fr p ss).2 = oscPhase secs fr p ss.length := by
  intro ss
  induction ss with
  | nil => intro p; rfl
  | cons s ss ih =>
    intro p
    show (oscByPhaseRun f secs fr (fract1 (p + secs * fr)) ss).2 = _
    rw [ih, oscPhase_shift]
    rfl

theorem oscByFreqRun_get (f : ℚ → ℚ) (secs fr : ℚ) :
    ∀ (ss : List ℚ) (i : ℕ) (p : ℚ), i < ss.length →
      (oscByFreqRun f secs fr p ss).1.get? i
        = some (f (oscPhaseFM secs fr p (ss.take i))) := by
  intro ss
  induction ss with
  | nil => intro i p hi; simp at hi
  | cons s ss ih =>
    intro i p hi
    match i with
    | 0 => rfl
    | i + 1 =>
      show (oscByFreqRun f secs fr (fract1 (p + secs * (fr + s))) ss).1.get? i = _
      rw [ih i _ (by simpa using hi)]
      rfl

theorem oscByFreqRun_final (f : ℚ → ℚ) (secs fr : ℚ) :
    ∀ (ss : List ℚ) (p : ℚ),
      (oscByFreqRun f secs fr p ss).2 = oscPhaseFM secs fr p ss := by
  intro ss
  induction ss with
  | nil => intro p; rfl
  | cons s ss ih =>
    intro p
    exact ih _

/-- Claim C6: the three oscillator stage algorithms. With no modulation the
`i`-th output is `shape(phase_i)` where the phase advances by
`freq * sample_secs` modulo 1 each sample (closed form
`fract(phase + i * secs * freq)` from the first advance on); with `ByPhase`
modulation the `i`-th output is `shape((phase_i + in_i) mod 1)` while the
phase trajectory is the same unmodulated one; with `ByFrequency` modulation
the `i`-th output is `shape(phase_i)` where each input `s` advances the phase
by `(freq + s) * sample_secs` modulo 1. The frequency `fr` is the per-block
`LfSource` sample. -/
theorem c6_oscillator_stages (f : ℚ → ℚ) (secs fr p : ℚ) (n : ℕ) (ss : List ℚ) :
    (∀ i, i < n →
      (oscNoModRun f secs fr p n).1.get? i = some (f (oscPhase secs fr p i)))
    ∧ (oscNoModRun f secs fr p n).2 = oscPhase secs fr p n
    ∧ (∀ i, 1 ≤ i → oscPhase secs fr p i = fract1 (p + i * (secs * fr)))
    ∧ (∀ (i : ℕ) (hi : i < ss.length),
      (oscByPhaseRun f secs fr p ss).1.get? i
        = some (f (fract1 (oscPhase secs fr p i + ss.get ⟨i, hi⟩))))
    ∧ (oscByPhaseRun f secs fr p ss).2 = oscPhase secs fr p ss.length
    ∧ (∀ i, i < ss.length →
      (oscByFreqRun f secs fr p ss).1.get? i
        = some (f (oscPhaseFM secs fr p (ss.take i))))
    ∧ (oscByFreqRun f secs fr p ss).2 = oscPhaseFM secs fr p ss :=
  ⟨fun i hi => oscNoModRun_get f secs fr n i p hi,
   oscNoModRun_final f secs fr n p,
   fun i hi => oscPhase_closed secs fr p i hi,
   fun i hi => oscByPhaseRun_get f secs fr ss i p hi,
   oscByPhaseRun_final f secs fr ss p,
   fun i hi => oscByFreqRun_get f secs fr ss i p hi,
   oscByFreqRun_final f secs fr ss p⟩

/-- Witness for C6 at concrete inputs. -/
theorem c6_witness :
    1 < 2
    ∧ (oscNoModRun (fun x => x) (1 / 2) (1 / 3) 0 2).1.get? 1 = some ((1 : ℚ) / 6) := by
  refine ⟨by decide, ?_⟩
  rw [(c6_oscillator_stages (fun x => x) (1 / 2) (1 / 3) 0 2 []).1 1 (by decide)]
  norm_num [oscPhase, fract1, Int.fract]

section ALemmas

variable {K V : Type} [DecidableEq K]

theorem alKeys_map_key_preserving (l : List (K × V)) (g : K × V → K × V)
    (hg : ∀ e, (g e).1 = e.1) : alKeys (l.map g) = alKeys l := by
  unfold alKeys
  rw [List.map_map]
  exact List.map_congr_left fun e _ => hg e

theorem alKeys_alUpdate (k : K) (f : V → V) (l : List (K × V)) :
    alKeys (alUpdate k f l) = alKeys l := by
  apply alKeys_map_key_preserving
  intro e
  dsimp only
  split <;> rfl

theorem mem_alKeys (k : K) (l : List (K × V)) :
    k ∈ alKeys l ↔ ∃ v, (k, v) ∈ l := by
  simp only [alKeys, List.mem_map, Prod.exists]
  constructor
  · rintro ⟨a, b, hab, rfl⟩
    exact ⟨b, hab⟩
  · rintro ⟨v, hv⟩
    exact ⟨k, v, hv, rfl⟩

theorem alKeys_alInsert_of_mem {k : K} {l : List (K × V)} (h : k ∈ alKeys l) (v : V) :
    alKeys (alInsert k v l) = alKeys l := by
  unfold alInsert
  rw [if_pos h]
  apply alKeys_map_key_preserving
  intro e
  dsimp only
  split
  · next he => exact he.symm
  · rfl

theorem alKeys_alInsert_of_not_mem {k : K} {l : List (K × V)} (h : k ∉ alKeys l) (v : V) :
    alKeys (alInsert k v l) = k :: alKeys l := by
  unfold alInsert
  rw [if_neg h]
  rfl

theorem nodup_alKeys_alInsert {l : List (K × V)} (h : (alKeys l).Nodup) (k : K) (v : V) :
    (alKeys (alInsert k v l)).Nodup := by
  by_cases hk : k ∈ alKeys l
  · rw [alKeys_alInsert_of_mem hk]
    exact h
  · rw [alKeys_alInsert_of_not_mem hk]
    exact List.nodup_cons.mpr ⟨hk, h⟩

theorem nodup_alKeys_alErase {l : List (K × V)} (h : (alKeys l).Nodup) (k : K) :
    (alKeys (alErase k l)).Nodup :=
  List.Nodup.sublist ((List.filter_sublist l).map Prod.fst) h

theorem not_mem_alKeys_alErase_self (k : K) (l : List (K × V)) :
    k ∉ alKeys (alErase k l) := by
  intro hmem
  obtain ⟨v, hv⟩ := (mem_alKeys k _).mp hmem
  have := (List.mem_filter.mp hv).2
  simp at this

theorem mem_alKeys_alErase_of_ne {k₁ k : K} {l : List (K × V)}
    (h : k₁ ∈ alKeys l) (hne : k₁ ≠ k) : k₁ ∈ alKeys (alErase k l) := by
  obtain ⟨v, hv⟩ := (mem_alKeys k₁ l).mp h
  exact (mem_alKeys k₁ _).mpr ⟨v, List.mem_filter.mpr ⟨hv, by simpa using hne⟩⟩

theorem mem_alInsert_self (k : K) (v : V) (l : List (K × V)) :
    (k, v) ∈ alInsert k v l := by
  unfold alInsert
  by_cases h : k ∈ alKeys l
  · rw [if_pos h]
    obtain ⟨w, hw⟩ := (mem_alKeys k l).mp h
    refine List.mem_map.mpr ⟨(k, w), hw, ?_⟩
    simp
  · rw [if_neg h]
    exact List.mem_cons_self _ _

theorem mem_alKeys_alInsert {k₁ k : K} {l : List (K × V)} (v : V) :
    k₁ ∈ alKeys (alInsert k v l) ↔ k₁ = k ∨ k₁ ∈ alKeys l := by
  by_cases h : k ∈ alKeys l
  · rw [alKeys_alInsert_of_mem h]
    constructor
    · exact Or.inr
    · rintro (rfl | hm)
      exacts [h, hm]
  · rw [alKeys_alInsert_of_not_mem h]
    simp [List.mem_cons]

theorem alLookup_eq_some_of_mem {k : K} {v : V} :
    ∀ {l : List (K × V)}, (alKeys l).Nodup → (k, v) ∈ l → alLookup k l = some v := by
  intro l
  induction l with
  | nil => intro _ hm; simp at hm
  | cons e l ih =>
    intro hnd hm
    have hnd2 : e.1 ∉ alKeys l ∧ (alKeys l).Nodup := by
      have := List.nodup_cons.mp (show (e.1 :: alKeys l).Nodup from hnd)
      exact this
    by_cases he : e.1 = k
    · unfold alLookup
      rw [List.find?_cons_of_pos _ (by simpa using he)]
      rcases List.mem_cons.mp hm with heq | hmem
      · rw [← heq]
        rfl
      · exfalso
        have hk : k ∈ alKeys l := (mem_alKeys k l).mpr ⟨v, hmem⟩
        exact hnd2.1 (he ▸ hk)
    · unfold alLookup
      rw [List.find?_cons_of_neg _ (by simpa using he)]
      rcases List.mem_cons.mp hm with heq | hmem
      · exact absurd (by rw [← heq]) he
      · exact ih hnd2.2 hmem

end ALemmas

theorem processMessage_nodup {S : Type} [DecidableEq S] (s : SynthState S)
    (m : Message S) (h : (alKeys s.playing).Nodup) :
    (alKeys (s.processMessage m).playing).Nodup := by
  cases m with
  | lifecycle id action =>
    cases action with
    | start w => exact nodup_alKeys_alInsert h _ _
    | updatePitch p =>
      simp only [SynthState.processMessage]
      rw [alKeys_alUpdate]
      exact h
    | updatePressure p =>
      simp only [SynthState.processMessage]
      rw [alKeys_alUpdate]
      exact h
    | stop =>
      cases hl : alLookup (WaveformState.stable id) s.playing with
      | none => simp only [SynthState.processMessage, hl]; exact h
      | some w =>
        simp only [SynthState.processMessage, hl]
        exact nodup_alKeys_alInsert (nodup_alKeys_alErase h _) _ _
  | damperPedal p =>
    simp only [SynthState.processMessage]
    rw [alKeys_map_key_preserving]
    · exact h
    · intro e
      rcases e with ⟨k, w⟩
      cases k <;> rfl
  | pitchBend bl => exact h
  | control c v => exact h

theorem processMessage_fading_mem {S : Type} [DecidableEq S] (s : SynthState S)
    (m : Message S) (n : ℕ) (h : WaveformState.fading n ∈ alKeys s.playing) :
    WaveformState.fading n ∈ alKeys (s.processMessage m).playing := by
  cases m with
  | lifecycle id action =>
    cases action with
    | start w => exact (mem_alKeys_alInsert _).mpr (Or.inr h)
    | updatePitch p =>
      simp only [SynthState.processMessage]
      rw [alKeys_alUpdate]
      exact h
    | updatePressure p =>
      simp only [SynthState.processMessage]
      rw [alKeys_alUpdate]
      exact h
    | stop =>
      cases hl : alLookup (WaveformState.stable id) s.playing with
      | none => simp only [SynthState.processMessage, hl]; exact h
      | some w =>
        simp only [SynthState.processMessage, hl]
        exact (mem_alKeys_alInsert _).mpr
          (Or.inr (mem_alKeys_alErase_of_ne h (by simp)))
  | damperPedal p =>
    simp only [SynthState.processMessage]
    rw [alKeys_map_key_preserving]
    · exact h
    · intro e
      rcases e with ⟨k, w⟩
      cases k <;> rfl
  | pitchBend bl => exact h
  | control c v => exact h

theorem processMessages_nodup {S : Type} [DecidableEq S] (s : SynthState S)
    (msgs : List (Message S)) (h : (alKeys s.playing).Nodup) :
    (alKeys (s.processMessages msgs).playing).Nodup := by
  induction msgs generalizing s with
  | nil => exact h
  | cons m msgs ih => exact ih _ (processMessage_nodup s m h)

theorem processMessages_fading_mem {S : Type} [DecidableEq S] (s : SynthState S)
    (msgs : List (Message S)) (n : ℕ)
    (h : WaveformState.fading n ∈ alKeys s.playing) :
    WaveformState.fading n ∈ alKeys (s.processMessages msgs).playing := by
  induction msgs generalizing s with
  | nil => exact h
  | cons m msgs ih => exact ih _ (processMessage_fading_mem s m n h)

/-- Claim C1: along any sequence of processed messages the key list of the
voice table stays duplicate-free, so at most one voice is keyed
`Stable(id)` for any `source_id` at any time; a voice keyed `Fading(n)`
stays present under every message (the transition is one-way); and
processing `Stop{id}` with a `Stable(id)` voice present removes the
`Stable(id)` key, re-inserts that voice faded with the current damper
pressure under `Fading(last_id)`, and increments the (wrapping) counter. -/
theorem c1_voice_key_invariants {S : Type} [DecidableEq S] (s : SynthState S)
    (msgs : List (Message S)) (hnd : (alKeys s.playing).Nodup) :
    (∀ t₁ t₂ : List (Message S), msgs = t₁ ++ t₂ →
      (alKeys (s.processMessages t₁).playing).Nodup
      ∧ ∀ id : S,
          (alKeys (s.processMessages t₁).playing).count (WaveformState.stable id) ≤ 1)
    ∧ (∀ (t₁ t₂ : List (Message S)) (n : ℕ), msgs = t₁ ++ t₂ →
      WaveformState.fading n ∈ alKeys s.playing →
      WaveformState.fading n ∈ alKeys (s.processMessages t₁).playing)
    ∧ (∀ (id : S) (w : Waveform), (WaveformState.stable id, w) ∈ s.playing →
      WaveformState.stable id
          ∉ alKeys (s.processMessage (.lifecycle id .stop)).playing
      ∧ (WaveformState.fading s.lastId, w.setFade s.damperPedalPressure)
          ∈ (s.processMessage (.lifecycle id .stop)).playing
      ∧ (s.processMessage (.lifecycle id .stop)).lastId = (s.lastId + 1) % 2 ^ 64) := by
  refine ⟨?_, ?_, ?_⟩
  · intro t₁ t₂ _
    have hn := processMessages_nodup s t₁ hnd
    exact ⟨hn, fun id => List.nodup_iff_count_le_one.mp hn _⟩
  · intro t₁ t₂ n _ hmem
    exact processMessages_fading_mem s t₁ n hmem
  · intro id w hw
    have hl : alLookup (WaveformState.stable id) s.playing = some w :=
      alLookup_eq_some_of_mem hnd hw
    refine ⟨?_, ?_, ?_⟩
    · simp only [SynthState.processMessage, hl]
      intro hmem
      rcases (mem_alKeys_alInsert _).mp hmem with heq | hmem2
      · exact WaveformState.noConfusion heq
      · exact not_mem_alKeys_alErase_self _ _ hmem2
    · simp only [SynthState.processMessage, hl]
      exact mem_alInsert_self _ _ _
    · simp only [SynthState.processMessage, hl]

/-- Witness for C1 at a concrete state: one stable voice, stopped. -/
theorem c1_witness :
    WaveformState.stable 3
        ∉ alKeys (((⟨[(.stable 3, ⟨440, 0, 1, .val 1, none⟩)], [], 0, 1, 1, 7⟩ :
            SynthState ℕ)).processMessage (.lifecycle 3 .stop)).playing
    ∧ (WaveformState.fading 7,
        Waveform.setFade 0 ⟨440, 0, 1, .val 1, none⟩)
        ∈ (((⟨[(.stable 3, ⟨440, 0, 1, .val 1, none⟩)], [], 0, 1, 1, 7⟩ :
            SynthState ℕ)).processMessage (.lifecycle 3 .stop)).playing
    ∧ (((⟨[(.stable 3, ⟨440, 0, 1, .val 1, none⟩)], [], 0, 1, 1, 7⟩ :
            SynthState ℕ)).processMessage (.lifecycle 3 .stop)).lastId
        = (7 + 1) % 2 ^ 64 :=
  (c1_voice_key_invariants
      (⟨[(.stable 3, ⟨440, 0, 1, .val 1, none⟩)], [], 0, 1, 1, 7⟩ : SynthState ℕ) []
      (by decide)).2.2 3 ⟨440, 0, 1, .val 1, none⟩ (List.mem_singleton.mpr rfl)

/-- Claim C7: `UpdatePitch`/`UpdatePressure` act on the voice table as a map
that rewrites only the targeted property of the entry keyed `Stable(id)` and
leaves every other entry and every other manager field unchanged; when a
`Stable(id)` voice exists the updated voice is present afterwards, and when
none exists the whole state is unchanged. -/
theorem c7_update_frame {S : Type} [DecidableEq S] (s : SynthState S) (id : S)
    (p pr : ℝ) :
    ((s.processMessage (.lifecycle id (.updatePitch p))).playing
        = s.playing.map (fun e =>
            if e.1 = WaveformState.stable id then (e.1, { e.2 with pitch := p })
            else e)
      ∧ (s.processMessage (.lifecycle id (.updatePitch p))).storage = s.storage
      ∧ (s.processMessage (.lifecycle id (.updatePitch p))).damperPedalPressure
          = s.damperPedalPressure
      ∧ (s.processMessage (.lifecycle id (.updatePitch p))).pitchWheelSensivity
          = s.pitchWheelSensivity
      ∧ (s.processMessage (.lifecycle id (.updatePitch p))).pitchBend = s.pitchBend
      ∧ (s.processMessage (.lifecycle id (.updatePitch p))).lastId = s.lastId)
    ∧ ((s.processMessage (.lifecycle id (.updatePressure pr))).playing
        = s.playing.map (fun e =>
            if e.1 = WaveformState.stable id then (e.1, { e.2 with pressure := pr })
            else e)
      ∧ (s.processMessage (.lifecycle id (.updatePressure pr))).storage = s.storage
      ∧ (s.processMessage (.lifecycle id (.updatePressure pr))).damperPedalPressure
          = s.damperPedalPressure
      ∧ (s.processMessage (.lifecycle id (.updatePressure pr))).pitchWheelSensivity
          = s.pitchWheelSensivity
      ∧ (s.processMessage (.lifecycle id (.updatePressure pr))).pitchBend = s.pitchBend
      ∧ (s.processMessage (.lifecycle id (.updatePressure pr))).lastId = s.lastId)
    ∧ (∀ w : Waveform, (WaveformState.stable id, w) ∈ s.playing →
      (WaveformState.stable id, { w with pitch := p })
          ∈ (s.processMessage (.lifecycle id (.updatePitch p))).playing
      ∧ (WaveformState.stable id, { w with pressure := pr })
          ∈ (s.processMessage (.lifecycle id (.updatePressure pr))).playing)
    ∧ (WaveformState.stable id ∉ alKeys s.playing →
      s.processMessage (.lifecycle id (.updatePitch p)) = s
      ∧ s.processMessage (.lifecycle id (.updatePressure pr)) = s) := by
  refine ⟨⟨rfl, rfl, rfl, rfl, rfl, rfl⟩, ⟨rfl, rfl, rfl, rfl, rfl, rfl⟩, ?_, ?_⟩
  · intro w hw
    constructor
    · show _ ∈ alUpdate (WaveformState.stable id) (fun w => { w with pitch := p })
        s.playing
      unfold alUpdate
      refine List.mem_map.mpr ⟨(WaveformState.stable id, w), hw, ?_⟩
      simp
    · show _ ∈ alUpdate (WaveformState.stable id) (fun w => { w with pressure := pr })
        s.playing
      unfold alUpdate
      refine List.mem_map.mpr ⟨(WaveformState.stable id, w), hw, ?_⟩
      simp
  · intro habs
    have hid : ∀ (f : Waveform → Waveform),
        alUpdate (WaveformState.stable id) f s.playing = s.playing := by
      intro f
      unfold alUpdate
      have hpt : ∀ e ∈ s.playing,
          (if e.1 = WaveformState.stable id then (e.1, f e.2) else e) = e := by
        intro e he
        rw [if_neg]
        intro heq
        apply habs
        rw [← heq]
        exact (mem_alKeys e.1 s.playing).mpr ⟨e.2, by rw [Prod.mk.eta]; exact he⟩
      rw [List.map_congr_left hpt, List.map_id']
    constructor
    · show { s with playing := alUpdate _ _ _ } = s
      rw [hid]
    · show { s with playing := alUpdate _ _ _ } = s
      rw [hid]

/-- Witness for C7 at a concrete state with no stable voice for the id. -/
theorem c7_witness :
    WaveformState.stable 5 ∉ alKeys ((⟨[], [], 0, 1, 1, 0⟩ : SynthState ℕ).playing)
    ∧ (⟨[], [], 0, 1, 1, 0⟩ : SynthState ℕ).processMessage
        (.lifecycle 5 (.updatePitch 330)) = ⟨[], [], 0, 1, 1, 0⟩ :=
  ⟨by decide,
   ((c7_update_frame (⟨[], [], 0, 1, 1, 0⟩ : SynthState ℕ) 5 330 0).2.2.2
     (by decide)).1⟩

/-- Counterexample to C2 as stated: processing `DamperPedal{1/8}` stores
`1/2` — the cube **root** of the clamped pressure — whereas the cubed
clamped pressure would be `(1/8)^3 = 1/512 ≠ 1/2`. -/
theorem c2_counterexample :
    ((⟨[], [], 0, 1, 1, 0⟩ : SynthState ℕ).processMessage
        (.damperPedal (1 / 8))).damperPedalPressure = 1 / 2
    ∧ clampPressure (1 / 8) = 1 / 8
    ∧ ((1 : ℝ) / 2) ≠ clampPressure (1 / 8) ^ (3 : ℕ) := by
  have hclamp : clampPressure (1 / 8) = 1 / 8 := by
    unfold clampPressure
    rw [max_eq_left (by norm_num : (0:ℝ) ≤ 1 / 8),
      min_eq_left (by norm_num : (1:ℝ) / 8 ≤ 1)]
  refine ⟨?_, hclamp, ?_⟩
  · show cbrt (clampPressure (1 / 8)) = 1 / 2
    rw [hclamp]
    unfold cbrt
    have h8 : ((1 : ℝ) / 8) = ((1 : ℝ) / 2) ^ ((3 : ℕ) : ℝ) := by
      rw [Real.rpow_natCast]
      norm_num
    rw [h8, ← Real.rpow_mul (by norm_num)]
    norm_num
  · rw [hclamp]
    norm_num

/-- Claim C2 (amended): processing `DamperPedal{pressure}` stores the cube
root of the pressure clamped to `[0,1]` as `damper_pedal_pressure`, updates
the fade of every voice keyed `Fading` with that value, and leaves `Stable`
voices (and all other manager fields) unchanged. -/
theorem c2_damper_cube_root {S : Type} [DecidableEq S] (s : SynthState S) (p : ℝ) :
    (s.processMessage (.damperPedal p)).damperPedalPressure
        = cbrt (clampPressure p)
    ∧ (0 ≤ clampPressure p ∧ clampPressure p ≤ 1)
    ∧ (∀ (n : ℕ) (w : Waveform), (WaveformState.fading n, w) ∈ s.playing →
        (WaveformState.fading n, w.setFade (cbrt (clampPressure p)))
          ∈ (s.processMessage (.damperPedal p)).playing)
    ∧ (∀ (id : S) (w : Waveform), (WaveformState.stable id, w) ∈ s.playing →
        (WaveformState.stable id, w) ∈ (s.processMessage (.damperPedal p)).playing)
    ∧ (∀ (id : S) (w : Waveform),
        (WaveformState.stable id, w) ∈ (s.processMessage (.damperPedal p)).playing →
        (WaveformState.stable id, w) ∈ s.playing)
    ∧ (s.processMessage (.damperPedal p)).storage = s.storage
    ∧ (s.processMessage (.damperPedal p)).pitchWheelSensivity = s.pitchWheelSensivity
    ∧ (s.processMessage (.damperPedal p)).pitchBend = s.pitchBend
    ∧ (s.processMessage (.damperPedal p)).lastId = s.lastId := by
  refine ⟨rfl, ⟨?_, ?_⟩, ?_, ?_, ?_, rfl, rfl, rfl, rfl⟩
  · exact le_min (le_max_right p 0) zero_le_one
  · exact min_le_right _ _
  · intro n w hw
    exact List.mem_map.mpr ⟨(WaveformState.fading n, w), hw, rfl⟩
  · intro id w hw
    exact List.mem_map.mpr ⟨(WaveformState.stable id, w), hw, rfl⟩
  · intro id w hw
    obtain ⟨e, he, heq⟩ := List.mem_map.mp hw
    rcases e with ⟨k, w2⟩
    cases k with
    | stable j =>
      have heq2 : (WaveformState.stable j, w2) = (WaveformState.stable id, w) := heq
      rw [← heq2]
      exact he
    | fading m =>
      have hf : WaveformState.fading m = WaveformState.stable id :=
        congrArg Prod.fst heq
      exact absurd hf (by simp)

/-- Witness for the amended C2 at a concrete state with one fading voice. -/
theorem c2_witness :
    (WaveformState.fading 4, ⟨220, 0, 1, .val 1, none⟩) ∈
        ((⟨[(.fading 4, ⟨220, 0, 1, .val 1, none⟩)], [], 0, 1, 1, 5⟩ :
          SynthState ℕ).playing)
    ∧ (WaveformState.fading 4,
        Waveform.setFade (cbrt (clampPressure (1 / 8))) ⟨220, 0, 1, .val 1, none⟩)
        ∈ ((⟨[(.fading 4, ⟨220, 0, 1, .val 1, none⟩)], [], 0, 1, 1, 5⟩ :
          SynthState ℕ).processMessage (.damperPedal (1 / 8))).playing :=
  ⟨List.mem_singleton.mpr rfl,
   (c2_damper_cube_root
      (⟨[(.fading 4, ⟨220, 0, 1, .val 1, none⟩)], [], 0, 1, 1, 5⟩ : SynthState ℕ)
      (1 / 8)).2.2.1 4 ⟨220, 0, 1, .val 1, none⟩ (List.mem_singleton.mpr rfl)⟩

/-- Counterexample to C3 as stated: a NaN sample in the mixdown is **not**
replaced by 0 at the host-output accumulation step — it propagates into both
stereo channels — and a voice whose `curr_amplitude` is NaN is **not**
retired by the retain pass (because `NaN < 1e-4` is false), it is kept. -/
theorem c3_counterexample :
    accumulate [FSample.nan] [(FSample.val 0, FSample.val 0)]
        = [(FSample.nan, FSample.nan)]
    ∧ accumulate [FSample.nan] [(FSample.val 0, FSample.val 0)]
        ≠ [(FSample.val 0, FSample.val 0)]
    ∧ retainRender (S := ℕ) id 1 [(WaveformState.fading 0, ⟨0, 0, 1, FSample.nan, none⟩)]
        = [(WaveformState.fading 0, ⟨0, 0, 1, FSample.nan, none⟩)]
    ∧ retainRender (S := ℕ) id 1 [(WaveformState.fading 0, ⟨0, 0, 1, FSample.nan, none⟩)]
        ≠ [] := by
  refine ⟨rfl, by decide, rfl, by simp [retainRender, FSample.ltVal]⟩

/-- A NaN entry of the mixdown propagates through the accumulation loop. -/
theorem accumulate_nan_get :
    ∀ (total : List FSample) (buffer : List (FSample × FSample)) (i : ℕ),
      total.get? i = some FSample.nan → i < buffer.length →
      (accumulate total buffer).get? i = some (FSample.nan, FSample.nan) := by
  intro total
  induction total with
  | nil => intro buffer i ht _; simp at ht
  | cons t ts ih =>
    intro buffer i ht hb
    cases buffer with
    | nil => simp at hb
    | cons b bs =>
      cases i with
      | zero =>
        have hnan : t = FSample.nan := by simpa using ht
        subst hnan
        rcases b with ⟨bl, br⟩
        cases bl <;> cases br <;> rfl
      | succ i => exact ih bs i (by simpa using ht) (by simpa using hb)

/-- Claim C3 (amended): the render path is total (modelled as total
functions), but NaN is not sanitized: a NaN at index `i` of the mixdown
yields NaN in both channels of the accumulated host buffer at index `i`, and
a voice whose `curr_amplitude` is NaN survives the retain pass and is
rendered like any other voice. -/
theorem c3_nan_propagation {S : Type} (render : Waveform → Waveform) (pb : ℝ)
    (l : List (WaveformState S × Waveform)) (total : List FSample)
    (buffer : List (FSample × FSample)) :
    (∀ i : ℕ, total.get? i = some FSample.nan → i < buffer.length →
      (accumulate total buffer).get? i = some (FSample.nan, FSample.nan))
    ∧ (∀ (k : WaveformState S) (w : Waveform), (k, w) ∈ l →
      w.currAmplitude = FSample.nan →
      (k, render (applyBend pb k w)) ∈ retainRender render pb l) := by
  constructor
  · exact accumulate_nan_get total buffer
  · intro k w hmem hamp
    refine List.mem_filterMap.mpr ⟨(k, w), hmem, ?_⟩
    rw [hamp]
    rfl

/-- Witness for the amended C3 on concrete data. -/
theorem c3_witness :
    ([FSample.nan].get? 0 = some FSample.nan) ∧ 0 < 1
    ∧ (accumulate [FSample.nan] [(FSample.val 2, FSample.val 3)]).get? 0
        = some (FSample.nan, FSample.nan) :=
  ⟨rfl, by decide,
   (c3_nan_propagation (S := ℕ) id 1 [] [FSample.nan]
      [(FSample.val 2, FSample.val 3)]).1 0 rfl (by decide)⟩

/-- A voice whose amplitude passes the retain threshold check is absent from
the retained table (given duplicate-free keys). -/
theorem not_mem_retainRender {S : Type} [DecidableEq S]
    (render : Waveform → Waveform) (pb : ℝ) {l : List (WaveformState S × Waveform)}
    {k : WaveformState S} {w : Waveform} (hnd : (alKeys l).Nodup)
    (hmem : (k, w) ∈ l) (hlt : FSample.ltVal w.currAmplitude (1 / 10000) = true) :
    k ∉ alKeys (retainRender render pb l) := by
  intro hk
  obtain ⟨v, hv⟩ := (mem_alKeys k _).mp hk
  obtain ⟨e, he, heq⟩ := List.mem_filterMap.mp hv
  by_cases hc : FSample.ltVal e.2.currAmplitude (1 / 10000) = true
  · rw [if_pos hc] at heq
    exact Option.noConfusion heq
  · rw [if_neg hc] at heq
    have heq2 := Option.some.inj heq
    have hek : e.1 = k := congrArg Prod.fst heq2
    have he2 : (k, e.2) ∈ l := by
      rw [← hek, Prod.mk.eta]
      exact he
    have h1 := alLookup_eq_some_of_mem hnd hmem
    have h2 := alLookup_eq_some_of_mem hnd he2
    rw [h1] at h2
    have hw2 : w = e.2 := Option.some.inj h2
    rw [← hw2] at hc
    exact hc hlt

/-- Claim C4: in every render call, after the pending messages are drained,
the voice table becomes exactly the retain pass over the drained state: every
voice whose `curr_amplitude` is a finite value below `1e-4` is removed (so it
is not rendered in this call and contributes to no later block), and every
voice at or above the threshold stays in the table, rendered (with its pitch
bend refreshed when `Stable`). -/
theorem c4_amplitude_eviction {S : Type} [DecidableEq S]
    (render : Waveform → Waveform) (total : List FSample)
    (msgs : List (Message S)) (buffer : List (FSample × FSample))
    (s : SynthState S) :
    (synthWrite render total msgs buffer s).1.playing
        = retainRender render (s.processMessages msgs).pitchBend
            (s.processMessages msgs).playing
    ∧ (∀ (k : WaveformState S) (w : Waveform) (x : ℚ),
        (alKeys (s.processMessages msgs).playing).Nodup →
        (k, w) ∈ (s.processMessages msgs).playing →
        w.currAmplitude = FSample.val x → x < 1 / 10000 →
        k ∉ alKeys (synthWrite render total msgs buffer s).1.playing)
    ∧ (∀ (k : WaveformState S) (w : Waveform) (x : ℚ),
        (k, w) ∈ (s.processMessages msgs).playing →
        w.currAmplitude = FSample.val x → ¬x < 1 / 10000 →
        (k, render (applyBend (s.processMessages msgs).pitchBend k w))
          ∈ (synthWrite render total msgs buffer s).1.playing) := by
  refine ⟨rfl, ?_, ?_⟩
  · intro k w x hnd hmem hamp hx
    exact not_mem_retainRender render _ hnd hmem
      (by rw [hamp]; simpa [FSample.ltVal] using hx)
  · intro k w x hmem hamp hx
    show _ ∈ retainRender render (s.processMessages msgs).pitchBend
      (s.processMessages msgs).playing
    refine List.mem_filterMap.mpr ⟨(k, w), hmem, ?_⟩
    rw [hamp]
    rw [if_neg (by simpa [FSample.ltVal] using hx)]

/-- Witness for C4: a state with one below-threshold and one above-threshold
voice; after a render call the former is gone and the latter is kept. -/
theorem c4_witness :
    (WaveformState.stable 0
        ∉ alKeys (synthWrite id [] [] []
            (⟨[(.stable 0, ⟨440, 0, 1, .val (1 / 20000), none⟩),
               (.fading 1, ⟨330, 0, 1, .val 1, none⟩)], [], 0, 1, 1, 0⟩ :
            SynthState ℕ)).1.playing)
    ∧ (WaveformState.fading 1, ⟨330, 0, 1, .val 1, none⟩)
        ∈ (synthWrite id [] [] []
            (⟨[(.stable 0, ⟨440, 0, 1, .val (1 / 20000), none⟩),
               (.fading 1, ⟨330, 0, 1, .val 1, none⟩)], [], 0, 1, 1, 0⟩ :
            SynthState ℕ)).1.playing :=
  ⟨(c4_amplitude_eviction id [] [] []
      (⟨[(.stable 0, ⟨440, 0, 1, .val (1 / 20000), none⟩),
         (.fading 1, ⟨330, 0, 1, .val 1, none⟩)], [], 0, 1, 1, 0⟩ :
        SynthState ℕ)).2.1
      (.stable 0) ⟨440, 0, 1, .val (1 / 20000), none⟩ (1 / 20000)
      (by decide) (List.mem_cons_self _ _) rfl (by norm_num),
   (c4_amplitude_eviction id [] [] []
      (⟨[(.stable 0, ⟨440, 0, 1, .val (1 / 20000), none⟩),
         (.fading 1, ⟨330, 0, 1, .val 1, none⟩)], [], 0, 1, 1, 0⟩ :
        SynthState ℕ)).2.2
      (.fading 1) ⟨330, 0, 1, .val 1, none⟩ 1
      (List.mem_cons_of_mem _ (List.mem_cons_self _ _)) rfl (by norm_num)⟩

/-- One unfolding of the fuelled Stern-Brocot walk. -/
theorem sbLoop_succ {K : Type} [LinearOrderedField K] (target : K) (L fuel : ℕ)
    (left right best : ℕ × ℕ) (bestDev : Option K) :
    sbLoop target L (fuel + 1) left right best bestDev
      = if left.1 + right.1 ≤ 65535 ∧ left.2 + right.2 ≤ 65535 then
          if L < oddFactors (left.1 + right.1)
              ∧ L < oddFactors (left.2 + right.2) then
            (best, bestDev)
          else
            if target < ((left.1 + right.1 : ℕ) : K) / ((left.2 + right.2 : ℕ) : K) then
              sbLoop target L fuel left (left.1 + right.1, left.2 + right.2)
                (sbCandidate target L (left.1 + right.1, left.2 + right.2)
                  best bestDev).1
                (sbCandidate target L (left.1 + right.1, left.2 + right.2)
                  best bestDev).2
            else if ((left.1 + right.1 : ℕ) : K) / ((left.2 + right.2 : ℕ) : K)

                < target then
              sbLoop target L fuel (left.1 + right.1, left.2 + right.2) right
                (sbCandidate target L (left.1 + right.1, left.2 + right.2)
                  best bestDev).1
                (sbCandidate target L (left.1 + right.1, left.2 + right.2)
                  best bestDev).2
            else ((sbCandidate target L (left.1 + right.1, left.2 + right.2)
                    best bestDev).1,
                  (sbCandidate target L (left.1 + right.1, left.2 + right.2)
                    best bestDev).2)
        else (best, bestDev) := rfl

/-- The loop invariant of the Stern-Brocot walk: once the running best is an
eligible fraction with positive components, it stays one. -/
theorem sbLoop_invariant {K : Type} [LinearOrderedField K] (target : K) (L : ℕ) :
    ∀ (fuel : ℕ) (left right best : ℕ × ℕ) (bestDev : Option K),
      oddFactors best.1 ≤ L → oddFactors best.2 ≤ L → 1 ≤ best.1 → 1 ≤ best.2 →
      1 ≤ left.1 + right.1 → 1 ≤ left.2 + right.2 →
      oddFactors (sbLoop target L fuel left right best bestDev).1.1 ≤ L
      ∧ oddFactors (sbLoop target L fuel left right best bestDev).1.2 ≤ L
      ∧ 1 ≤ (sbLoop target L fuel left right best bestDev).1.1
      ∧ 1 ≤ (sbLoop target L fuel left right best bestDev).1.2 := by
  intro fuel
  induction fuel with
  | zero => intro l r b d h1 h2 h3 h4 _ _; exact ⟨h1, h2, h3, h4⟩
  | succ fuel ih =>
    intro left right best bestDev hb1 hb2 hb3 hb4 hs1 hs2
    rw [sbLoop_succ]
    have hnext :
        oddFactors (sbCandidate target L (left.1 + right.1, left.2 + right.2)
            best bestDev).1.1 ≤ L
        ∧ oddFactors (sbCandidate target L (left.1 + right.1, left.2 + right.2)
            best bestDev).1.2 ≤ L
        ∧ 1 ≤ (sbCandidate target L (left.1 + right.1, left.2 + right.2)
            best bestDev).1.1
        ∧ 1 ≤ (sbCandidate target L (left.1 + right.1, left.2 + right.2)
            best bestDev).1.2 := by
      unfold sbCandidate
      by_cases hc1 : oddFactors (left.1 + right.1, left.2 + right.2).1 ≤ L
          ∧ oddFactors (left.1 + right.1, left.2 + right.2).2 ≤ L
      · rw [if_pos hc1]
        by_cases hc2 : improves
            (target / (((left.1 + right.1, left.2 + right.2).1 : K)
              / ((left.1 + right.1, left.2 + right.2).2 : K))) bestDev = true
        · rw [if_pos hc2]
          exact ⟨hc1.1, hc1.2, hs1, hs2⟩
        · rw [if_neg hc2]
          exact ⟨hb1, hb2, hb3, hb4⟩
      · rw [if_neg hc1]
        exact ⟨hb1, hb2, hb3, hb4⟩
    by_cases h1 : left.1 + right.1 ≤ 65535 ∧ left.2 + right.2 ≤ 65535
    · rw [if_pos h1]
      by_cases h2 : L < oddFactors (left.1 + right.1)
          ∧ L < oddFactors (left.2 + right.2)
      · rw [if_pos h2]
        exact ⟨hb1, hb2, hb3, hb4⟩
      · rw [if_neg h2]
        by_cases h3 : target
            < ((left.1 + right.1 : ℕ) : K) / ((left.2 + right.2 : ℕ) : K)
        · rw [if_pos h3]
          exact ih _ _ _ _ hnext.1 hnext.2.1 hnext.2.2.1 hnext.2.2.2
            (by omega) (by omega)
        · rw [if_neg h3]
          by_cases h4 : ((left.1 + right.1 : ℕ) : K) / ((left.2 + right.2 : ℕ) : K)
              < target
          · rw [if_pos h4]
            exact ih _ _ _ _ hnext.1 hnext.2.1 hnext.2.2.1 hnext.2.2.2
              (by omega) (by omega)
          · rw [if_neg h4]
            exact hnext
    · rw [if_neg h1]
      exact ⟨hb1, hb2, hb3, hb4⟩

/-- From the initial state, with an odd limit of at least 1, the walk always
produces an eligible fraction with positive components (the first mediant
`1/1` is always eligible and recorded). -/
theorem sbLoop_initial {K : Type} [LinearOrderedField K] (target : K) (L : ℕ)
    (hL : 1 ≤ L) :
    oddFactors (sbLoop target L 262144 (0, 1) (1, 0) (0, 0) none).1.1 ≤ L
    ∧ oddFactors (sbLoop target L 262144 (0, 1) (1, 0) (0, 0) none).1.2 ≤ L
    ∧ 1 ≤ (sbLoop target L 262144 (0, 1) (1, 0) (0, 0) none).1.1
    ∧ 1 ≤ (sbLoop target L 262144 (0, 1) (1, 0) (0, 0) none).1.2 := by
  have hodd1 : oddFactors 1 = 1 := by decide
  rw [show (262144 : ℕ) = 262143 + 1 from rfl, sbLoop_succ]
  rw [if_pos (by norm_num)]
  have hb : ¬(L < oddFactors ((0, 1).1 + (1, 0).1)
      ∧ L < oddFactors ((0, 1).2 + (1, 0).2)) := by
    rw [show (0, 1).1 + (1, 0).1 = 1 from rfl, show (0, 1).2 + (1, 0).2 = 1 from rfl,
      hodd1]
    omega
  rw [if_neg hb]
  have helig : oddFactors ((0, 1).1 + (1, 0).1, (0, 1).2 + (1, 0).2).1 ≤ L
      ∧ oddFactors ((0, 1).1 + (1, 0).1, (0, 1).2 + (1, 0).2).2 ≤ L := by
    constructor
    · show oddFactors 1 ≤ L
      rw [hodd1]
      exact hL
    · show oddFactors 1 ≤ L
      rw [hodd1]
      exact hL
  have hcand1 : (sbCandidate target L ((0, 1).1 + (1, 0).1, (0, 1).2 + (1, 0).2)
      (0, 0) none).1 = (1, 1) := by
    unfold sbCandidate
    rw [if_pos helig]
    simp [improves]
  have hprops : oddFactors (sbCandidate target L
        ((0, 1).1 + (1, 0).1, (0, 1).2 + (1, 0).2) (0, 0) none).1.1 ≤ L
      ∧ oddFactors (sbCandidate target L
        ((0, 1).1 + (1, 0).1, (0, 1).2 + (1, 0).2) (0, 0) none).1.2 ≤ L
      ∧ 1 ≤ (sbCandidate target L
        ((0, 1).1 + (1, 0).1, (0, 1).2 + (1, 0).2) (0, 0) none).1.1
      ∧ 1 ≤ (sbCandidate target L
        ((0, 1).1 + (1, 0).1, (0, 1).2 + (1, 0).2) (0, 0) none).1.2 := by
    rw [hcand1]
    refine ⟨?_, ?_, ?_, ?_⟩
    · show oddFactors 1 ≤ L
      rw [hodd1]
      exact hL
    · show oddFactors 1 ≤ L
      rw [hodd1]
      exact hL
    · exact le_refl 1
    · exact le_refl 1
  by_cases h3 : target < (((0, 1).1 + (1, 0).1 : ℕ) : K) / (((0, 1).2 + (1, 0).2 : ℕ) : K)
  · rw [if_pos h3]
    exact sbLoop_invariant target L 262143 _ _ _ _
      hprops.1 hprops.2.1 hprops.2.2.1 hprops.2.2.2 (by decide) (by decide)
  · rw [if_neg h3]
    by_cases h4 : (((0, 1).1 + (1, 0).1 : ℕ) : K) / (((0, 1).2 + (1, 0).2 : ℕ) : K)
        < target
    · rw [if_pos h4]
      exact sbLoop_invariant target L 262143 _ _ _ _
        hprops.1 hprops.2.1 hprops.2.2.1 hprops.2.2.2 (by decide) (by decide)
    · rw [if_neg h4]
      exact ⟨hprops.1, hprops.2.1, hprops.2.2.1, hprops.2.2.2⟩

/-- Counterexample to C8 as stated: for `r = 11/7` and odd limit `9` the
algorithm returns `8/5`, yet `14/9` satisfies the odd-factor constraint
(odd factors 7 and 9, both at most 9) and approximates the octave-reduced
value `11/7` strictly more closely (`|dev|` is `99/98 < 56/55`), so a better
constrained fraction exists and the returned one is not nearest. -/
theorem c8_counterexample :
    (nearestFraction ((11 : ℝ) / 7) 9).numer = 8
    ∧ (nearestFraction ((11 : ℝ) / 7) 9).denom = 5
    ∧ (nearestFraction ((11 : ℝ) / 7) 9).numOctaves = 0
    ∧ oddFactors 14 ≤ 9 ∧ oddFactors 9 ≤ 9
    ∧ ratioAbs (((11 : ℝ) / 7) / ((14 : ℝ) / 9))
        < ratioAbs (((11 : ℝ) / 7) / ((8 : ℝ) / 5)) := by
  have hof1 : oddFactors 1 = 1 := by decide
  have hof2 : oddFactors 2 = 1 := by decide
  have hof3 : oddFactors 3 = 3 := by decide
  have hof5 : oddFactors 5 = 5 := by decide
  have hof7 : oddFactors 7 = 7 := by decide
  have hof8 : oddFactors 8 = 1 := by decide
  have hof11 : oddFactors 11 = 11 := by decide
  have step1 : sbLoop ((11 : ℝ) / 7) 9 262144 (0, 1) (1, 0) (0, 0) none
      = sbLoop ((11 : ℝ) / 7) 9 262143 (1, 1) (1, 0) (1, 1) (some ((11 : ℝ) / 7)) := by
    rw [show (262144 : ℕ) = 262143 + 1 from rfl, sbLoop_succ]
    norm_num [sbCandidate, improves, ratioAbs, hof1]
  have step2 : sbLoop ((11 : ℝ) / 7) 9 262143 (1, 1) (1, 0) (1, 1) (some ((11 : ℝ) / 7))
      = sbLoop ((11 : ℝ) / 7) 9 262142 (1, 1) (2, 1) (2, 1) (some ((11 : ℝ) / 14)) := by
    rw [show (262143 : ℕ) = 262142 + 1 from rfl, sbLoop_succ]
    norm_num [sbCandidate, improves, ratioAbs, hof1, hof2]
  have step3 : sbLoop ((11 : ℝ) / 7) 9 262142 (1, 1) (2, 1) (2, 1) (some ((11 : ℝ) / 14))
      = sbLoop ((11 : ℝ) / 7) 9 262141 (3, 2) (2, 1) (3, 2) (some ((22 : ℝ) / 21)) := by
    rw [show (262142 : ℕ) = 262141 + 1 from rfl, sbLoop_succ]
    norm_num [sbCandidate, improves, ratioAbs, hof1, hof2, hof3]
  have step4 : sbLoop ((11 : ℝ) / 7) 9 262141 (3, 2) (2, 1) (3, 2) (some ((22 : ℝ) / 21))
      = sbLoop ((11 : ℝ) / 7) 9 262140 (3, 2) (5, 3) (3, 2) (some ((22 : ℝ) / 21)) := by
    rw [show (262141 : ℕ) = 262140 + 1 from rfl, sbLoop_succ]
    norm_num [sbCandidate, improves, ratioAbs, hof3, hof5]
  have step5 : sbLoop ((11 : ℝ) / 7) 9 262140 (3, 2) (5, 3) (3, 2) (some ((22 : ℝ) / 21))
      = sbLoop ((11 : ℝ) / 7) 9 262139 (3, 2) (8, 5) (8, 5) (some ((55 : ℝ) / 56)) := by
    rw [show (262140 : ℕ) = 262139 + 1 from rfl, sbLoop_succ]
    norm_num [sbCandidate, improves, ratioAbs, hof5, hof8]
  have step6 : sbLoop ((11 : ℝ) / 7) 9 262139 (3, 2) (8, 5) (8, 5) (some ((55 : ℝ) / 56))
      = ((8, 5), some ((55 : ℝ) / 56)) := by
    rw [show (262139 : ℕ) = 262138 + 1 from rfl, sbLoop_succ]
    norm_num [sbCandidate, improves, ratioAbs, hof7, hof11]
  have hQ : sbLoop ((11 : ℝ) / 7) 9 262144 (0, 1) (1, 0) (0, 0) none
      = ((8, 5), some ((55 : ℝ) / 56)) := by
    rw [step1, step2, step3, step4, step5, step6]
  have hfloor : ⌊Real.logb 2 ((11 : ℝ) / 7)⌋ = 0 := by
    rw [Int.floor_eq_zero_iff]
    refine Set.mem_Ico.mpr ⟨?_, ?_⟩
    · exact Real.logb_nonneg (by norm_num) (by norm_num)
    · rw [Real.logb_lt_iff_lt_rpow (by norm_num) (by norm_num), Real.rpow_one]
      norm_num
  have htarg : Ratio.deviationFrom ((11 : ℝ) / 7) (Ratio.fromOctaves ((0 : ℤ) : ℝ))
      = (11 : ℝ) / 7 := by
    unfold Ratio.deviationFrom Ratio.fromOctaves
    rw [show (((0 : ℤ) : ℝ)) = 0 by norm_num, Real.rpow_zero]
    norm_num
  have hnf : nearestFraction ((11 : ℝ) / 7) 9
      = ⟨8, 5, some ((55 : ℝ) / 56), 0⟩ := by
    unfold nearestFraction
    dsimp only
    rw [show ⌊Ratio.asOctaves ((11 : ℝ) / 7)⌋ = (0 : ℤ) from hfloor, htarg, hQ]
  refine ⟨by rw [hnf], by rw [hnf], by rw [hnf], by decide, by decide, ?_⟩
  rw [show ((11 : ℝ) / 7) / ((14 : ℝ) / 9) = 99 / 98 by norm_num,
    show ((11 : ℝ) / 7) / ((8 : ℝ) / 5) = 55 / 56 by norm_num]
  unfold ratioAbs
  rw [if_neg (by norm_num), if_pos (by norm_num)]
  rw [show ((55 : ℝ) / 56)⁻¹ = 56 / 55 by norm_num]
  norm_num

/-- Claim C8 (amended): for every positive ratio `r` and odd limit `L ≥ 1`,
`nearest_fraction(r, L)` returns a fraction `(p, q)` with `p, q ≥ 1` whose
odd factors are each at most `L`, and `num_octaves = ⌊log2 r⌋`. (The
"no closer constrained fraction exists" part of the claim is dropped: it is
false, see the counterexample — the walk only inspects Stern-Brocot mediants
and can miss a closer eligible fraction.) -/
theorem c8_nearest_fraction (r : ℝ) (L : ℕ) (hr : 0 < r) (hL : 1 ≤ L) :
    oddFactors (nearestFraction r L).numer ≤ L
    ∧ oddFactors (nearestFraction r L).denom ≤ L
    ∧ 1 ≤ (nearestFraction r L).numer
    ∧ 1 ≤ (nearestFraction r L).denom
    ∧ (nearestFraction r L).numOctaves = ⌊Real.logb 2 r⌋ := by
  have key := sbLoop_initial
    (Ratio.deviationFrom r (Ratio.fromOctaves ((⌊Ratio.asOctaves r⌋ : ℤ) : ℝ))) L hL
  exact ⟨key.1, key.2.1, key.2.2.1, key.2.2.2, rfl⟩

/-- Witness for the amended C8 at a concrete input. -/
theorem c8_witness :
    0 < (3 : ℝ) / 2 ∧ 1 ≤ 3
    ∧ oddFactors (nearestFraction ((3 : ℝ) / 2) 3).numer ≤ 3
    ∧ 1 ≤ (nearestFraction ((3 : ℝ) / 2) 3).denom :=
  ⟨by norm_num, by decide,
   (c8_nearest_fraction ((3 : ℝ) / 2) 3 (by norm_num) (by decide)).1,
   (c8_nearest_fraction ((3 : ℝ) / 2) 3 (by norm_num) (by decide)).2.2.2.1⟩


end Tune
